import Mathlib

/-!
Shallow embedding of the portfolio backtest engine in
`Lab4_src/trading_env.py` (class `TradingEnvironment` and the static
`Evaluation` methods) and of the moving-average crossover signal
generator `ma_crossover_signals` in `Lab4_src/Lab_4_Forecast_Model.py`.

Dates and tickers are modelled as natural numbers; prices and cash as
exact rationals (Python floats become `ℚ`); pandas `NaN` results are
modelled as `Option.none`.  Python `//` on floats is mathematical floor,
so it is `Int.floor` of the rational quotient, and `int(...)` applied to
an already-floored value is the identity.
-/

namespace DSCI560

/-- The `side` argument of `TradingEnvironment._apply_cost`. -/
inductive Side
  | buy
  | sell
deriving DecidableEq

/-- A signal value of the decision table in signal mode. -/
inductive Sig
  | buy
  | sell
  | hold
deriving DecidableEq

/-- Embeds `TradingEnvironment._apply_cost`: cost-adjust a price.  The code
adjusts only when `transaction_cost_bps` or `slippage_bps` is nonzero,
multiplying by `1 + bps` for `"buy"` and `1 - bps` otherwise. -/
def applyCost (tc sl : ℚ) (price : ℚ) (side : Side) : ℚ :=
  if tc ≠ 0 ∨ sl ≠ 0 then
    match side with
    | .buy => price * (1 + (tc + sl))
    | .sell => price * (1 - (tc + sl))
  else price

/-- The running state of `run_backtest`: the `cash` float and the
`shares` dict (integer share count per ticker, initialised to 0). -/
@[ext]
structure PortState where
  cash : ℚ
  shares : ℕ → ℤ

/-- Pointwise update of the `shares` dict at one ticker. -/
def updShares (sh : ℕ → ℤ) (tk : ℕ) (v : ℤ) : ℕ → ℤ :=
  fun x => if x = tk then v else sh x

/-- Embeds `cash + sum(shares[tk] * prices_close.at[t, tk] for tk in tickers)`:
the portfolio value snapshot used in both branches of `run_backtest`. -/
def portVal (pcT : ℕ → ℚ) (tickers : List ℕ) (st : PortState) : ℚ :=
  st.cash + (tickers.map (fun tk => (st.shares tk : ℚ) * pcT tk)).sum

/-- One ticker of the `mode == 'signals'` branch of `run_backtest`:
on `"buy"`, if cash covers the raw next-open price, buy
`int(cash // raw_open)` shares at the cost-adjusted (buy-side) price; on
`"sell"` with a positive position, liquidate at the cost-adjusted
(sell-side) price; otherwise do nothing.  `poN tk` is
`prices_open.at[t_next, tk]`. -/
def sigTickerStep (tc sl : ℚ) (poN : ℕ → ℚ) (dec : ℕ → Sig)
    (st : PortState) (tk : ℕ) : PortState :=
  match dec tk with
  | .buy =>
      if poN tk ≤ st.cash then
        let n : ℤ := ⌊st.cash / poN tk⌋
        { cash := st.cash - (n : ℚ) * applyCost tc sl (poN tk) .buy,
          shares := updShares st.shares tk (st.shares tk + n) }
      else st
  | .sell =>
      if 0 < st.shares tk then
        { cash := st.cash + (st.shares tk : ℚ) * applyCost tc sl (poN tk) .sell,
          shares := updShares st.shares tk 0 }
      else st
  | .hold => st

/-- One ticker of the `mode == 'weights'` branch of `run_backtest`:
`n_shares = int(diff_val // price)` with
`price = _apply_cost(open_next, "buy")` — the buy side is used for every
trade, whatever the sign of `diff_val`.  `pv` is the `port_val` snapshot
taken before the per-ticker loop; `pcT tk` is `prices_close.at[t, tk]`. -/
def weightsTickerStep (tc sl : ℚ) (pcT poN : ℕ → ℚ) (alloc : ℕ → ℚ)
    (pv : ℚ) (st : PortState) (tk : ℕ) : PortState :=
  let diff_val := pv * alloc tk - (st.shares tk : ℚ) * pcT tk
  let price := applyCost tc sl (poN tk) .buy
  let n : ℤ := ⌊diff_val / price⌋
  { cash := st.cash - (n : ℚ) * price,
    shares := updShares st.shares tk (st.shares tk + n) }

/-- The whole `mode == 'signals'` branch for one date: fold the
per-ticker step over `self.tickers` in order. -/
def sigDate (tc sl : ℚ) (poN : ℕ → ℚ) (dec : ℕ → Sig)
    (tickers : List ℕ) (st : PortState) : PortState :=
  tickers.foldl (sigTickerStep tc sl poN dec) st

/-- The whole `mode == 'weights'` branch for one date: snapshot
`port_val` once, then fold the per-ticker step over `self.tickers`. -/
def weightsDate (tc sl : ℚ) (pcT poN : ℕ → ℚ) (alloc : ℕ → ℚ)
    (tickers : List ℕ) (st : PortState) : PortState :=
  let pv := portVal pcT tickers st
  tickers.foldl (weightsTickerStep tc sl pcT poN alloc pv) st

/-- One row appended to `rows` by `run_backtest`. -/
structure LedgerRow where
  date : ℕ
  cash : ℚ
  total_value : ℚ
  pos : ℕ → ℤ

/-- The consecutive pairs `(prices_open.index[i], prices_open.index[i+1])`
for `i in range(len(prices_open) - 1)`. -/
def datePairs (dates : List ℕ) : List (ℕ × ℕ) :=
  dates.zip dates.tail

/-- The main loop of `run_backtest`, generic in the per-date trading
step: skip dates absent from the decision index (no trade, no row);
otherwise trade, then record `date`, `cash`, post-trade `port_val` at
the current close, and the position snapshot. -/
def runLoop (dateStep : ℕ → ℕ → PortState → PortState)
    (pc : ℕ → ℕ → ℚ) (tickers : List ℕ) (decIdx : ℕ → Bool) :
    List (ℕ × ℕ) → PortState → List LedgerRow
  | [], _ => []
  | (t, tn) :: rest, st =>
      if decIdx t then
        let st2 := dateStep t tn st
        { date := t, cash := st2.cash,
          total_value := portVal (pc t) tickers st2,
          pos := st2.shares } ::
          runLoop dateStep pc tickers decIdx rest st2
      else runLoop dateStep pc tickers decIdx rest st

/-- The configuration fields of `TradingEnvironment` that
`run_backtest` reads (besides the mode, which selects the branch). -/
structure SimConfig where
  initial_cash : ℚ
  transaction_cost_bps : ℚ
  slippage_bps : ℚ
  tickers : List ℕ

/-- Embeds `cash = self.initial_cash` and a shares dict of zeros for the configured tickers. -/
def initState (cfg : SimConfig) : PortState :=
  { cash := cfg.initial_cash, shares := fun _ => 0 }

/-- The `rows` list built by `run_backtest` in signal mode.
`po`/`pc` are the open/close price tables, `decIdx` the membership test
of the decision index, `dec` the decision table lookup. -/
def backtestRowsSignals (cfg : SimConfig) (dates : List ℕ)
    (po pc : ℕ → ℕ → ℚ) (decIdx : ℕ → Bool) (dec : ℕ → ℕ → Sig) :
    List LedgerRow :=
  runLoop
    (fun t tn st =>
      sigDate cfg.transaction_cost_bps cfg.slippage_bps (po tn) (dec t)
        cfg.tickers st)
    pc cfg.tickers decIdx (datePairs dates) (initState cfg)

/-- The `rows` list built by `run_backtest` in weight mode. -/
def backtestRowsWeights (cfg : SimConfig) (dates : List ℕ)
    (po pc : ℕ → ℕ → ℚ) (decIdx : ℕ → Bool) (alloc : ℕ → ℕ → ℚ) :
    List LedgerRow :=
  runLoop
    (fun t tn st =>
      weightsDate cfg.transaction_cost_bps cfg.slippage_bps (pc t) (po tn)
        (alloc t) cfg.tickers st)
    pc cfg.tickers decIdx (datePairs dates) (initState cfg)

/-- Embeds `pd.DataFrame(rows).set_index("date")`: on an empty `rows` list the
DataFrame has no `date` column and `set_index` raises `KeyError`. -/
def setIndexDate (rows : List LedgerRow) : Except String (List LedgerRow) :=
  match rows with
  | [] => .error "KeyError: date"
  | r :: rs => .ok (r :: rs)

/-- Embeds `run_backtest` in signal mode, including the final
`pd.DataFrame(rows).set_index("date")` step. -/
def run_backtest_signals (cfg : SimConfig) (dates : List ℕ)
    (po pc : ℕ → ℕ → ℚ) (decIdx : ℕ → Bool) (dec : ℕ → ℕ → Sig) :
    Except String (List LedgerRow) :=
  setIndexDate (backtestRowsSignals cfg dates po pc decIdx dec)

/-- Embeds `run_backtest` in weight mode, including the final
`pd.DataFrame(rows).set_index("date")` step. -/
def run_backtest_weights (cfg : SimConfig) (dates : List ℕ)
    (po pc : ℕ → ℕ → ℚ) (decIdx : ℕ → Bool) (alloc : ℕ → ℕ → ℚ) :
    Except String (List LedgerRow) :=
  setIndexDate (backtestRowsWeights cfg dates po pc decIdx alloc)

/-- The trade dates the loop actually processes: the first component of
each consecutive date pair whose date is in the decision index. -/
def processedDates (dates : List ℕ) (decIdx : ℕ → Bool) : List ℕ :=
  ((datePairs dates).filter (fun p => decIdx p.1)).map Prod.fst

/-!
The `Evaluation` static methods, over a value series given as a list of
rationals.  pandas `NaN` outcomes are `Option.none`; on series whose
entries are all nonzero no `NaN` arises inside `pct_change`, so the
plain `zipWith` below is exactly `pct_change().dropna()`.
-/

/-- Embeds `value.pct_change().dropna()`: consecutive relative changes. -/
def value_pct_change (v : List ℚ) : List ℚ :=
  List.zipWith (fun a b => (b - a) / a) v v.tail

/-- Embeds `r.mean()` of a pandas series, as a rational. -/
def listMean (r : List ℚ) : ℚ :=
  r.sum / (r.length : ℚ)

/-- Embeds `r.std()` of a pandas series: sample standard deviation with
`ddof = 1`, which is `NaN` (`none`) when fewer than two observations. -/
noncomputable def sampleStd (r : List ℚ) : Option ℝ :=
  if r.length < 2 then none
  else
    some (Real.sqrt
      ((r.map (fun x => ((x : ℝ) - (listMean r : ℝ)) ^ 2)).sum /
        ((r.length : ℝ) - 1)))

/-- Embeds `Evaluation.sharpe`: 0 when the differenced return series is empty,
else `mean / (std + 1e-12) * sqrt(252)`; `NaN` (`none`) propagates from
the sample standard deviation of a single observation. -/
noncomputable def sharpe (v : List ℚ) : Option ℝ :=
  let r := value_pct_change v
  if r.length = 0 then some 0
  else
    match sampleStd r with
    | none => none
    | some s =>
        some (((listMean r : ℚ) : ℝ) / (s + 1 / 10 ^ 12) * Real.sqrt 252)

/-- Embeds `Evaluation.annualized_return`: 0 when the series has at most one
point, else `(1 + total_ret) ** (1 / years) - 1` with
`years = n / 252` (always positive in that branch). -/
noncomputable def annualized_return (v : List ℚ) : ℝ :=
  if v.length ≤ 1 then 0
  else
    let total_ret : ℝ := ((v.getLastD 0 / v.headD 0 : ℚ) : ℝ) - 1
    let years : ℝ := (v.length : ℝ) / 252
    if 0 < years then (1 + total_ret) ^ (1 / years) - 1 else total_ret

/-- Helper for `value.cummax()`: running maximum with accumulator. -/
def cummaxAux (m : ℚ) : List ℚ → List ℚ
  | [] => []
  | x :: xs => max m x :: cummaxAux (max m x) xs

/-- Embeds `value.cummax()`: the running maximum of the series. -/
def cummax : List ℚ → List ℚ
  | [] => []
  | x :: xs => x :: cummaxAux x xs

/-- Embeds `Evaluation.max_drawdown`, i.e. `float(((value / value.cummax()) - 1).min())`;
the minimum of an empty series is `NaN` (`none`). -/
def max_drawdown (v : List ℚ) : Option ℚ :=
  (List.zipWith (fun x p => x / p - 1) v (cummax v)).min?

/-!
`ma_crossover_signals` from `Lab4_src/Lab_4_Forecast_Model.py`: rolling
means with pandas' default `min_periods = window` (`NaN` before a full
window, modelled as `none`), `"buy"` where `fast_ma - slow_ma > 0`,
`"sell"` where it is negative, `"hold"` where it is zero or either
rolling mean is `NaN`.
-/

/-- Embeds `px.rolling(w).mean()` at position `i`: the mean of the window of
the last `w` observations ending at `i`, or `none` when `i + 1 < w`. -/
def rollingMeanAt (w : ℕ) (px : List ℚ) (i : ℕ) : Option ℚ :=
  if w ≤ i + 1 then some (((px.drop (i + 1 - w)).take w).sum / (w : ℚ))
  else none

/-- Embeds `ma_crossover_signals(close, fast, slow)` as a list of signals, one
per input observation. -/
def ma_crossover_signals (px : List ℚ) (fast slow : ℕ) : List Sig :=
  (List.range px.length).map (fun i =>
    match rollingMeanAt fast px i, rollingMeanAt slow px i with
    | some f, some s =>
        if 0 < f - s then .buy else if f - s < 0 then .sell else .hold
    | _, _ => .hold)

/-!  Helper lemmas shared by the claim theorems. -/

/-- Every row appended by the loop records `total_value` as
`cash + Σ shares·close` at the row's own date. -/
theorem runLoop_row_accounting (dateStep : ℕ → ℕ → PortState → PortState)
    (pc : ℕ → ℕ → ℚ) (tickers : List ℕ) (decIdx : ℕ → Bool) :
    ∀ (ps : List (ℕ × ℕ)) (st : PortState),
      ∀ row ∈ runLoop dateStep pc tickers decIdx ps st,
        row.total_value =
          row.cash +
            (tickers.map (fun tk => (row.pos tk : ℚ) * pc row.date tk)).sum := by
  intro ps
  induction ps with
  | nil => intro st row hrow; simp [runLoop] at hrow
  | cons p rest ih =>
      intro st row hrow
      obtain ⟨t, tn⟩ := p
      by_cases h : decIdx t
      · simp only [runLoop, h, if_true] at hrow
        rcases List.mem_cons.mp hrow with h1 | h2
        · subst h1; simp [portVal]
        · exact ih _ row h2
      · simp only [runLoop, h, Bool.false_eq_true, if_false] at hrow
        exact ih _ row hrow

/-- The dates of the rows produced by the loop are exactly the first
components of the pairs whose date passes the decision-index test. -/
theorem runLoop_map_date (dateStep : ℕ → ℕ → PortState → PortState)
    (pc : ℕ → ℕ → ℚ) (tickers : List ℕ) (decIdx : ℕ → Bool) :
    ∀ (ps : List (ℕ × ℕ)) (st : PortState),
      (runLoop dateStep pc tickers decIdx ps st).map LedgerRow.date =
        (ps.filter (fun p => decIdx p.1)).map Prod.fst := by
  intro ps
  induction ps with
  | nil => intro st; simp [runLoop]
  | cons p rest ih =>
      intro st
      obtain ⟨t, tn⟩ := p
      by_cases h : decIdx t
      · simp only [runLoop, h, if_true, List.map_cons, List.filter_cons]
        simp [ih]
      · simp only [runLoop, h, Bool.false_eq_true, if_false, List.filter_cons]
        simp [h, ih]

/-- If no pair's date is in the decision index, the loop appends no row. -/
theorem runLoop_eq_nil (dateStep : ℕ → ℕ → PortState → PortState)
    (pc : ℕ → ℕ → ℚ) (tickers : List ℕ) (decIdx : ℕ → Bool) :
    ∀ (ps : List (ℕ × ℕ)) (st : PortState),
      (∀ p ∈ ps, decIdx p.1 = false) →
      runLoop dateStep pc tickers decIdx ps st = [] := by
  intro ps
  induction ps with
  | nil => intro st _; simp [runLoop]
  | cons p rest ih =>
      intro st hall
      obtain ⟨t, tn⟩ := p
      have ht : decIdx t = false := hall (t, tn) (List.mem_cons_self _ _)
      simp only [runLoop, ht, Bool.false_eq_true, if_false]
      exact ih st (fun q hq => hall q (List.mem_cons_of_mem _ hq))

/-- The first components of the consecutive date pairs are the price
index without its last date. -/
theorem map_fst_datePairs : ∀ dates : List ℕ,
    (datePairs dates).map Prod.fst = dates.dropLast
  | [] => rfl
  | [_] => rfl
  | a :: b :: t => by
      have ih := map_fst_datePairs (b :: t)
      simp only [datePairs, List.tail_cons, List.zip_cons_cons, List.map_cons]
      simp only [datePairs, List.tail_cons] at ih
      rw [ih]
      rfl

/-- The processed dates form a sublist of the price index. -/
theorem processedDates_sublist (dates : List ℕ) (decIdx : ℕ → Bool) :
    (processedDates dates decIdx).Sublist dates := by
  have h1 : (processedDates dates decIdx).Sublist
      ((datePairs dates).map Prod.fst) :=
    ((datePairs dates).filter_sublist.map Prod.fst)
  rw [map_fst_datePairs] at h1
  exact h1.trans dates.dropLast_sublist

/-- A price index with fewer than two dates yields no date pair. -/
theorem datePairs_eq_nil (dates : List ℕ) (h : dates.length < 2) :
    datePairs dates = [] := by
  match dates with
  | [] => rfl
  | [_] => rfl
  | a :: b :: t => simp at h; omega

/-- The return series of `pct_change().dropna()` has one observation
fewer than the value series. -/
theorem value_pct_change_length (v : List ℚ) :
    (value_pct_change v).length = v.length - 1 := by
  simp [value_pct_change]

/-- Value of `Evaluation.sharpe` on a series of at most one point is `0.0`. -/
theorem sharpe_of_short (v : List ℚ) (h : v.length ≤ 1) :
    sharpe v = some 0 := by
  have hr : (value_pct_change v).length = 0 := by
    rw [value_pct_change_length]; omega
  simp only [sharpe]
  rw [if_pos hr]

/-- Closed form of the weight-mode per-date fold: with distinct tickers
each share count is read before its only update, so every ticker's
trade is determined by the initial state and the `port_val` snapshot
alone, the cash delta being the sum of the per-ticker dollar trades. -/
theorem foldl_weightsTickerStep_closed (tc sl : ℚ) (pcT poN : ℕ → ℚ)
    (alloc : ℕ → ℚ) (pv : ℚ) (st : PortState) :
    ∀ (l : List ℕ) (s : PortState), l.Nodup →
      (∀ tk ∈ l, s.shares tk = st.shares tk) →
      l.foldl (weightsTickerStep tc sl pcT poN alloc pv) s =
        { cash := s.cash - (l.map (fun tk =>
            (⌊(pv * alloc tk - (st.shares tk : ℚ) * pcT tk) /
                applyCost tc sl (poN tk) Side.buy⌋ : ℚ) *
              applyCost tc sl (poN tk) Side.buy)).sum,
          shares := fun x =>
            if x ∈ l then
              st.shares x +
                ⌊(pv * alloc x - (st.shares x : ℚ) * pcT x) /
                  applyCost tc sl (poN x) Side.buy⌋
            else s.shares x } := by
  intro l
  induction l with
  | nil =>
      intro s _ _
      simp only [List.foldl_nil, List.map_nil, List.sum_nil]
      ext x
      · simp
      · simp
  | cons tk l ih =>
      intro s hnd hag
      have htk : s.shares tk = st.shares tk := hag tk (List.mem_cons_self _ _)
      have hnotmem : tk ∉ l := (List.nodup_cons.mp hnd).1
      have hndl : l.Nodup := (List.nodup_cons.mp hnd).2
      rw [List.foldl_cons]
      have hag2 : ∀ x ∈ l,
          (weightsTickerStep tc sl pcT poN alloc pv s tk).shares x =
            st.shares x := by
        intro x hx
        have hne : x ≠ tk := fun he => hnotmem (he ▸ hx)
        simp only [weightsTickerStep, updShares]
        rw [if_neg hne]
        exact hag x (List.mem_cons_of_mem _ hx)
      rw [ih _ hndl hag2]
      ext x
      · simp only [weightsTickerStep, List.map_cons, List.sum_cons, htk]
        ring
      · simp only [weightsTickerStep, updShares, List.mem_cons]
        by_cases hxl : x ∈ l
        · rw [if_pos hxl, if_pos (Or.inr hxl)]
        · by_cases hxtk : x = tk
          · subst hxtk
            rw [if_neg hxl, if_pos (Or.inl rfl), if_pos rfl, htk]
          · have hor : ¬(x = tk ∨ x ∈ l) := by tauto
            rw [if_neg hxl, if_neg hxtk, if_neg hor]

/-!  Claim theorems. -/

/-- C1: in both modes of `run_backtest`, every ledger row satisfies
`total_value = cash + Σ shares·close` at the row's date, the row dates
are exactly the processed dates (one row per processed date), and they
are strictly increasing whenever the price index is. -/
theorem C1_ledger_invariant (cfg : SimConfig) (dates : List ℕ)
    (po pc : ℕ → ℕ → ℚ) (decIdx : ℕ → Bool) (dec : ℕ → ℕ → Sig)
    (alloc : ℕ → ℕ → ℚ) (hmono : dates.Pairwise (· < ·)) :
    (∀ row ∈ backtestRowsSignals cfg dates po pc decIdx dec,
        row.total_value = row.cash +
          (cfg.tickers.map (fun tk => (row.pos tk : ℚ) * pc row.date tk)).sum) ∧
    (backtestRowsSignals cfg dates po pc decIdx dec).map LedgerRow.date =
      processedDates dates decIdx ∧
    ((backtestRowsSignals cfg dates po pc decIdx dec).map
      LedgerRow.date).Pairwise (· < ·) ∧
    (∀ row ∈ backtestRowsWeights cfg dates po pc decIdx alloc,
        row.total_value = row.cash +
          (cfg.tickers.map (fun tk => (row.pos tk : ℚ) * pc row.date tk)).sum) ∧
    (backtestRowsWeights cfg dates po pc decIdx alloc).map LedgerRow.date =
      processedDates dates decIdx ∧
    ((backtestRowsWeights cfg dates po pc decIdx alloc).map
      LedgerRow.date).Pairwise (· < ·) := by
  have hs := runLoop_map_date
    (fun t tn st =>
      sigDate cfg.transaction_cost_bps cfg.slippage_bps (po tn) (dec t)
        cfg.tickers st)
    pc cfg.tickers decIdx (datePairs dates) (initState cfg)
  have hw := runLoop_map_date
    (fun t tn st =>
      weightsDate cfg.transaction_cost_bps cfg.slippage_bps (pc t) (po tn)
        (alloc t) cfg.tickers st)
    pc cfg.tickers decIdx (datePairs dates) (initState cfg)
  have hp : (processedDates dates decIdx).Pairwise (· < ·) :=
    List.Pairwise.sublist (processedDates_sublist dates decIdx) hmono
  refine ⟨?_, hs, ?_, ?_, hw, ?_⟩
  · exact fun row h => runLoop_row_accounting _ _ _ _ _ _ row h
  · rw [backtestRowsSignals, hs]; exact hp
  · exact fun row h => runLoop_row_accounting _ _ _ _ _ _ row h
  · rw [backtestRowsWeights, hw]; exact hp

/-- Witness for C1 on a concrete three-date hold-only run. -/
theorem C1_ledger_invariant_witness :
    ((backtestRowsSignals ⟨100000, 0, 0, [0]⟩ [0, 1, 2] (fun _ _ => 100)
        (fun _ _ => 100) (fun _ => true) (fun _ _ => Sig.hold)).map
        LedgerRow.date).Pairwise (· < ·) :=
  (C1_ledger_invariant ⟨100000, 0, 0, [0]⟩ [0, 1, 2] (fun _ _ => 100)
    (fun _ _ => 100) (fun _ => true) (fun _ _ => Sig.hold) (fun _ _ => 1)
    (by decide)).2.2.1

/-- C2 (code bug): in signal mode with 1% total costs, the buy at the
raw open price 100 is sized as `int(100000 // 100) = 1000` shares but
charged at the cost-adjusted price 101, leaving cash `-1000 < 0`. -/
theorem C2_cash_negative_with_costs :
    (backtestRowsSignals ⟨100000, 1/100, 0, [0]⟩ [0, 1] (fun _ _ => 100)
      (fun _ _ => 100) (fun _ => true) (fun _ _ => Sig.buy)).map
      (fun r => r.cash) = [-1000] ∧ (-1000 : ℚ) < 0 := by
  constructor
  · norm_num [backtestRowsSignals, runLoop, sigDate, sigTickerStep, applyCost,
      updShares, initState, portVal, datePairs]
  · norm_num

/-- C3 (code bug): on the spec's 1%-cost scenario (cash 100000, prices
constant at 100 over 5 dates, decisions hold/buy/hold/sell/hold) the
code buys `int(100000 // 100) = 1000` shares — not
`floor(100000 / 101) = 990` — and charges `1000 × 101`, leaving cash
`-1000` after the buy date rather than `10`. -/
theorem C3_one_percent_cost_scenario :
    (backtestRowsSignals ⟨100000, 1/100, 0, [0]⟩ [0, 1, 2, 3, 4]
      (fun _ _ => 100) (fun _ _ => 100) (fun _ => true)
      (fun t _ => if t = 1 then Sig.buy
        else if t = 3 then Sig.sell else Sig.hold)).map
      (fun r => (r.cash, r.pos 0)) =
      [(100000, 0), (-1000, 1000), (-1000, 1000), (98000, 0)] ∧
    ((-1000 : ℚ), (1000 : ℤ)) ≠ ((10 : ℚ), (990 : ℤ)) := by
  constructor
  · norm_num [backtestRowsSignals, runLoop, sigDate, sigTickerStep, applyCost,
      updShares, initState, portVal, datePairs]
  · simp

/-- C4 counterexample: in weight mode, a trade with negative share
delta (the rebalance sells 99 shares) is executed at the buy-side
adjusted price `100 × (1 + 0.01) = 101`, not at the sell-side price
`100 × (1 − 0.01) = 99` the claim requires. -/
theorem C4_weight_sell_buy_side_cex :
    (backtestRowsWeights ⟨10000, 1/100, 0, [0]⟩ [0, 1, 2] (fun _ _ => 100)
      (fun _ _ => 100) (fun _ => true)
      (fun t _ => if t = 0 then 1 else 0)).map (fun r => (r.cash, r.pos 0)) =
      [(1, 99), (10000, 0)] ∧
    (10000 - 1 : ℚ) = 99 * applyCost (1/100) 0 100 Side.buy ∧
    (10000 - 1 : ℚ) ≠ 99 * applyCost (1/100) 0 100 Side.sell := by
  refine ⟨?_, ?_, ?_⟩
  · norm_num [backtestRowsWeights, runLoop, weightsDate, weightsTickerStep,
      applyCost, updShares, initState, portVal, datePairs]
  · norm_num [applyCost]
  · norm_num [applyCost]

/-- C5 counterexample: `sharpe` of the two-point series `[100, 110]`
has one return observation, whose sample standard deviation is `NaN`,
so the result is `NaN` (`none`) — not `0` as the claim states. -/
theorem C5_sharpe_len2_nan_cex :
    sharpe [100, 110] = none ∧ (none : Option ℝ) ≠ some 0 :=
  ⟨rfl, by simp⟩

/-- C6 counterexample: `max_drawdown` of the empty series takes the
minimum of an empty pandas series, which is `NaN` (`none`), not `0.0`. -/
theorem C6_max_drawdown_empty_cex :
    max_drawdown ([] : List ℚ) = none ∧ (none : Option ℚ) ≠ some 0 :=
  ⟨rfl, by simp⟩

/-- C9: signal mode is not invariant under ticker ordering: with cash
100 and both tickers signalled "buy" at open prices 60 and 45, order
`[0, 1]` ends with cash 40 and positions (1, 0) while order `[1, 0]`
ends with cash 10 and positions (0, 2). -/
theorem C9_signal_order_dependent :
    (backtestRowsSignals ⟨100, 0, 0, [0, 1]⟩ [0, 1]
      (fun _ tk => if tk = 0 then 60 else 45)
      (fun _ tk => if tk = 0 then 60 else 45) (fun _ => true)
      (fun _ _ => Sig.buy)).map (fun r => (r.cash, r.pos 0, r.pos 1)) =
      [(40, 1, 0)] ∧
    (backtestRowsSignals ⟨100, 0, 0, [1, 0]⟩ [0, 1]
      (fun _ tk => if tk = 0 then 60 else 45)
      (fun _ tk => if tk = 0 then 60 else 45) (fun _ => true)
      (fun _ _ => Sig.buy)).map (fun r => (r.cash, r.pos 0, r.pos 1)) =
      [(10, 0, 2)] ∧
    ([0, 1] : List ℕ).Perm [1, 0] ∧
    ((40 : ℚ), (1 : ℤ), (0 : ℤ)) ≠ ((10 : ℚ), (0 : ℤ), (2 : ℤ)) := by
  refine ⟨?_, ?_, List.Perm.swap 1 0 [], by simp⟩ <;>
  norm_num [backtestRowsSignals, runLoop, sigDate, sigTickerStep, applyCost,
    updShares, initState, portVal, datePairs]

/-- C10: when no date is processed — fewer than two price dates, or no
non-final price date present in the decision index — `run_backtest`
builds its result from an empty row list and `set_index("date")`
raises instead of returning an empty ledger, in both modes. -/
theorem C10_empty_ledger_error (cfg : SimConfig) (dates : List ℕ)
    (po pc : ℕ → ℕ → ℚ) (decIdx : ℕ → Bool) (dec : ℕ → ℕ → Sig)
    (alloc : ℕ → ℕ → ℚ)
    (h : dates.length < 2 ∨ ∀ t ∈ dates.dropLast, decIdx t = false) :
    run_backtest_signals cfg dates po pc decIdx dec =
      Except.error "KeyError: date" ∧
    run_backtest_weights cfg dates po pc decIdx alloc =
      Except.error "KeyError: date" := by
  have hpairs : ∀ p ∈ datePairs dates, decIdx p.1 = false := by
    rcases h with h | h
    · intro p hp; rw [datePairs_eq_nil dates h] at hp; simp at hp
    · intro p hp
      apply h
      rw [← map_fst_datePairs]
      exact List.mem_map_of_mem Prod.fst hp
  have hs : backtestRowsSignals cfg dates po pc decIdx dec = [] :=
    runLoop_eq_nil _ _ _ _ _ _ hpairs
  have hw : backtestRowsWeights cfg dates po pc decIdx alloc = [] :=
    runLoop_eq_nil _ _ _ _ _ _ hpairs
  constructor
  · rw [run_backtest_signals, hs]; rfl
  · rw [run_backtest_weights, hw]; rfl

/-- Witness for C10 on a one-date price index. -/
theorem C10_empty_ledger_error_witness :
    run_backtest_signals ⟨100, 0, 0, [0]⟩ [0] (fun _ _ => 1) (fun _ _ => 1)
      (fun _ => true) (fun _ _ => Sig.hold) = Except.error "KeyError: date" :=
  (C10_empty_ledger_error ⟨100, 0, 0, [0]⟩ [0] (fun _ _ => 1) (fun _ _ => 1)
    (fun _ => true) (fun _ _ => Sig.hold) (fun _ _ => 1)
    (Or.inl (by decide))).1

/-- C4 (amended): when both cost rates are zero every trade uses the raw
price unchanged; otherwise signal-mode buys execute at
`raw × (1 + total_bps)` and signal-mode sells at `raw × (1 − total_bps)`,
while in weight mode every trade — including one with a negative share
delta — is priced with the buy-side adjustment `raw × (1 + total_bps)`. -/
theorem C4_trade_price_amended (tc sl p : ℚ) (pcT poN : ℕ → ℚ)
    (dec : ℕ → Sig) (alloc : ℕ → ℚ) (pv : ℚ) (st : PortState) (tk : ℕ) :
    (tc = 0 ∧ sl = 0 →
      applyCost tc sl p Side.buy = p ∧ applyCost tc sl p Side.sell = p) ∧
    (¬(tc = 0 ∧ sl = 0) →
      applyCost tc sl p Side.buy = p * (1 + (tc + sl)) ∧
      applyCost tc sl p Side.sell = p * (1 - (tc + sl))) ∧
    (dec tk = Sig.buy → poN tk ≤ st.cash →
      (sigTickerStep tc sl poN dec st tk).cash =
        st.cash - (⌊st.cash / poN tk⌋ : ℚ) * applyCost tc sl (poN tk) Side.buy) ∧
    (dec tk = Sig.sell → 0 < st.shares tk →
      (sigTickerStep tc sl poN dec st tk).cash =
        st.cash + (st.shares tk : ℚ) * applyCost tc sl (poN tk) Side.sell) ∧
    (weightsTickerStep tc sl pcT poN alloc pv st tk).cash =
      st.cash -
        (⌊(pv * alloc tk - (st.shares tk : ℚ) * pcT tk) /
            applyCost tc sl (poN tk) Side.buy⌋ : ℚ) *
          applyCost tc sl (poN tk) Side.buy := by
  refine ⟨?_, ?_, ?_, ?_, rfl⟩
  · rintro ⟨h1, h2⟩
    subst h1; subst h2
    constructor <;> simp [applyCost]
  · intro h
    have h2 : tc ≠ 0 ∨ sl ≠ 0 := by tauto
    constructor <;> (simp only [applyCost]; rw [if_pos h2])
  · intro hb hle
    simp [sigTickerStep, hb, hle]
  · intro hs hpos
    simp [sigTickerStep, hs, hpos]

/-- Witness for C4 (amended): a concrete signal-mode sell at 1% costs. -/
theorem C4_trade_price_amended_witness :
    (sigTickerStep (1/100) 0 (fun _ => 100) (fun _ => Sig.sell)
      ⟨1000, fun _ => 3⟩ 0).cash =
      1000 + ((3 : ℤ) : ℚ) * applyCost (1/100) 0 100 Side.sell :=
  (C4_trade_price_amended (1/100) 0 100 (fun _ => 100) (fun _ => 100)
    (fun _ => Sig.sell) (fun _ => 1) 0 ⟨1000, fun _ => 3⟩ 0).2.2.2.1 rfl
    (by norm_num)

/-- C5 (amended): over positive value series, `sharpe` is `0` exactly
when the return series is empty (length ≤ 1); with exactly one return
observation (length 2) the sample standard deviation is `NaN` and so is
the result; with two or more return observations it is the annualised
`mean / (std + 1e-12)` ratio. -/
theorem C5_sharpe_amended (v : List ℚ) (hpos : ∀ x ∈ v, 0 < x) :
    (v.length ≤ 1 → sharpe v = some 0) ∧
    (v.length = 2 → sharpe v = none) ∧
    (3 ≤ v.length → ∃ s : ℝ,
      sampleStd (value_pct_change v) = some s ∧
      sharpe v = some (((listMean (value_pct_change v) : ℚ) : ℝ) /
        (s + 1 / 10 ^ 12) * Real.sqrt 252)) := by
  refine ⟨fun h => sharpe_of_short v h, fun h => ?_, fun h => ?_⟩
  · have hr : (value_pct_change v).length = 1 := by
      rw [value_pct_change_length, h]
    have hstd : sampleStd (value_pct_change v) = none := by
      simp only [sampleStd]
      rw [if_pos (by omega)]
    simp only [sharpe]
    rw [if_neg (by omega), hstd]
  · have hr : 2 ≤ (value_pct_change v).length := by
      rw [value_pct_change_length]; omega
    have hstd : sampleStd (value_pct_change v) =
        some (Real.sqrt
          (((value_pct_change v).map (fun x =>
              ((x : ℝ) - (listMean (value_pct_change v) : ℝ)) ^ 2)).sum /
            (((value_pct_change v).length : ℝ) - 1))) := by
      simp only [sampleStd]
      rw [if_neg (by omega)]
    refine ⟨_, hstd, ?_⟩
    simp only [sharpe]
    rw [if_neg (by omega), hstd]

/-- Witness for C5 (amended) at series of lengths 1, 2 and 3. -/
theorem C5_sharpe_amended_witness :
    sharpe [(4 : ℚ)] = some 0 ∧ sharpe [4, 5] = none ∧
    (sharpe [4, 5, 6]).isSome = true := by
  refine ⟨(C5_sharpe_amended [4] (by norm_num)).1 (by norm_num),
    (C5_sharpe_amended [4, 5] (by norm_num)).2.1 rfl, ?_⟩
  obtain ⟨s, _, hs⟩ := (C5_sharpe_amended [4, 5, 6] (by norm_num)).2.2
    (by norm_num)
  rw [hs]
  rfl

/-- C6 (amended): for series of length 0 or 1, `annualized_return` and
`sharpe` return the default `0.0`; `max_drawdown` returns `0.0` for a
one-point series with nonzero value but `NaN` (`none`) for the empty
series. -/
theorem C6_degenerate_defaults (v : List ℚ) :
    (v.length ≤ 1 → annualized_return v = 0) ∧
    (v.length ≤ 1 → sharpe v = some 0) ∧
    (∀ x : ℚ, x ≠ 0 → v = [x] → max_drawdown v = some 0) ∧
    (v = [] → max_drawdown v = none) := by
  refine ⟨fun h => ?_, fun h => sharpe_of_short v h,
    fun x hx hv => ?_, fun hv => ?_⟩
  · simp only [annualized_return]
    rw [if_pos h]
  · subst hv
    simp only [max_drawdown, cummax, cummaxAux, List.zipWith]
    rw [div_self hx]
    norm_num [List.min?]
  · subst hv
    rfl

/-- Witness for C6 (amended) at concrete degenerate series. -/
theorem C6_degenerate_defaults_witness :
    annualized_return [] = 0 ∧ sharpe [(7 : ℚ)] = some 0 ∧
    max_drawdown [(5 : ℚ)] = some 0 ∧ max_drawdown ([] : List ℚ) = none :=
  ⟨(C6_degenerate_defaults []).1 (by norm_num),
   (C6_degenerate_defaults [7]).2.1 (by norm_num),
   (C6_degenerate_defaults [5]).2.2.1 5 (by norm_num) rfl,
   (C6_degenerate_defaults []).2.2.2 rfl⟩

/-- C7: the weight-mode rebalance of a single date is invariant under
permutation of a duplicate-free ticker list: each dollar target is
computed from the same `port_val` snapshot taken before any trade of
the date, so cash and every per-ticker share count agree. -/
theorem C7_weights_rebalance_perm_invariant (tc sl : ℚ) (pcT poN : ℕ → ℚ)
    (alloc : ℕ → ℚ) (st : PortState) (l1 l2 : List ℕ)
    (hperm : l1.Perm l2) (hnd : l1.Nodup) :
    (weightsDate tc sl pcT poN alloc l1 st).cash =
      (weightsDate tc sl pcT poN alloc l2 st).cash ∧
    ∀ tk, (weightsDate tc sl pcT poN alloc l1 st).shares tk =
      (weightsDate tc sl pcT poN alloc l2 st).shares tk := by
  have hnd2 : l2.Nodup := hperm.nodup_iff.mp hnd
  have hpv : portVal pcT l1 st = portVal pcT l2 st := by
    simp only [portVal]
    rw [(hperm.map _).sum_eq]
  simp only [weightsDate]
  rw [hpv]
  rw [foldl_weightsTickerStep_closed tc sl pcT poN alloc
      (portVal pcT l2 st) st l1 st hnd (fun _ _ => rfl),
    foldl_weightsTickerStep_closed tc sl pcT poN alloc
      (portVal pcT l2 st) st l2 st hnd2 (fun _ _ => rfl)]
  constructor
  · simp only
    rw [(hperm.map _).sum_eq]
  · intro tk
    simp only
    by_cases h : tk ∈ l1
    · rw [if_pos h, if_pos (hperm.mem_iff.mp h)]
    · rw [if_neg h, if_neg (fun hc => h (hperm.mem_iff.mpr hc))]

/-- Witness for C7 at a concrete two-ticker date. -/
theorem C7_weights_rebalance_perm_invariant_witness :
    (weightsDate 0 0 (fun _ => 100) (fun _ => 100) (fun _ => 1/2) [0, 1]
      ⟨1000, fun _ => 0⟩).cash =
    (weightsDate 0 0 (fun _ => 100) (fun _ => 100) (fun _ => 1/2) [1, 0]
      ⟨1000, fun _ => 0⟩).cash :=
  (C7_weights_rebalance_perm_invariant 0 0 (fun _ => 100) (fun _ => 100)
    (fun _ => 1/2) ⟨1000, fun _ => 0⟩ [0, 1] [1, 0]
    (List.Perm.swap 1 0 []) (by decide)).1

/-- C8: `ma_crossover_signals` emits one signal per observation; the
first `slow − 1` outputs are `hold` (a rolling mean is still
undefined), and from index `slow − 1` on the output is `buy` where the
fast rolling mean exceeds the slow one, `sell` where it is below, and
`hold` where they are equal. -/
theorem C8_ma_crossover (px : List ℚ) (fast slow : ℕ) (hf : 1 ≤ fast)
    (hfs : fast < slow) :
    (ma_crossover_signals px fast slow).length = px.length ∧
    (∀ i, i < px.length → i + 1 < slow →
      (ma_crossover_signals px fast slow)[i]? = some Sig.hold) ∧
    (∀ i, i < px.length → slow ≤ i + 1 →
      (ma_crossover_signals px fast slow)[i]? = some (
        if ((px.drop (i + 1 - slow)).take slow).sum / (slow : ℚ) <
            ((px.drop (i + 1 - fast)).take fast).sum / (fast : ℚ)
        then Sig.buy
        else if ((px.drop (i + 1 - fast)).take fast).sum / (fast : ℚ) <
            ((px.drop (i + 1 - slow)).take slow).sum / (slow : ℚ)
        then Sig.sell
        else Sig.hold)) := by
  have hget : ∀ i, i < px.length →
      (ma_crossover_signals px fast slow)[i]? = some
        (match rollingMeanAt fast px i, rollingMeanAt slow px i with
        | some f, some s =>
            if 0 < f - s then Sig.buy
            else if f - s < 0 then Sig.sell else Sig.hold
        | _, _ => Sig.hold) := by
    intro i hi
    simp [ma_crossover_signals, List.getElem?_range, hi]
  refine ⟨by simp [ma_crossover_signals], fun i hi hlt => ?_, fun i hi hge => ?_⟩
  · rw [hget i hi]
    have hslow : rollingMeanAt slow px i = none := by
      simp only [rollingMeanAt]
      rw [if_neg (by omega)]
    rw [hslow]
    rcases hf2 : rollingMeanAt fast px i with _ | f <;> rfl
  · rw [hget i hi]
    have hfast : rollingMeanAt fast px i =
        some (((px.drop (i + 1 - fast)).take fast).sum / (fast : ℚ)) := by
      simp only [rollingMeanAt]
      rw [if_pos (by omega)]
    have hslow : rollingMeanAt slow px i =
        some (((px.drop (i + 1 - slow)).take slow).sum / (slow : ℚ)) := by
      simp only [rollingMeanAt]
      rw [if_pos (by omega)]
    rw [hfast, hslow]
    simp only [sub_pos, sub_neg]

/-- Witness for C8 on a short concrete series with windows 1 and 2. -/
theorem C8_ma_crossover_witness :
    (ma_crossover_signals [1, 2, 4] 1 2)[0]? = some Sig.hold ∧
    (ma_crossover_signals [1, 2, 4] 1 2)[1]? = some Sig.buy := by
  constructor
  · exact (C8_ma_crossover [1, 2, 4] 1 2 (by norm_num) (by norm_num)).2.1 0
      (by norm_num) (by norm_num)
  · have h := (C8_ma_crossover [1, 2, 4] 1 2 (by norm_num) (by norm_num)).2.2 1
      (by norm_num) (by norm_num)
    rw [h]
    norm_num

end DSCI560
